import Mathlib

/-!
Verification of the change-detection, history-filtering, queueing and report
normalization core of the pleiades_reporter repository.

Modelling conventions (shallow embedding of the Python sources):
* Timestamps and dates are `Nat` (seconds since the epoch).  The Python code
  sometimes sorts by ISO-8601 UTC date strings and sometimes by parsed
  datetimes; for such strings lexicographic and chronological order coincide,
  so a single `Nat` field is an order-isomorphic model of both.
* Python `deque` objects are `List`s whose head (index 0) is the left end of
  the deque: `extend` appends on the right, `extendleft` prepends element by
  element on the left, and `pop()` removes from the right.
* Python `dict`s are association lists in insertion order: assigning to an
  existing key updates the value in place, assigning to a fresh key appends.
* Code that can raise an exception is `Option`-valued: `none` models an
  uncaught exception aborting the computation.
* Network reads are passed in as explicit data (feed entry lists, a
  `String → Place` JSON fetcher, a Zotero environment) since the HTTP layer
  is an external collaborator of the repository.
-/

/-! ## Channel and its dissemination queue (channel.py)

`Channel.enqueue` checks its argument is a list and then `extend`s (right
append) or, when `first` is set, `extendleft`s (left prepend, which reverses
the batch).  `Channel.post_next` repeatedly calls `deque.pop()`, which takes
from the right end, i.e. the same end `extend` appends to. -/

def Channel.enqueue {α : Type} (queue : List α) (posts : List α) ( first : Bool) : List α :=
  if first then posts.reverse ++ queue else queue ++ posts

/-- One `deque.pop()`: remove and return the rightmost element, or fail on an
empty deque (`IndexError`, caught by `post_next`). -/
def Channel.popRight {α : Type} (queue : List α) : Option (α × List α) :=
  match queue.getLast? with
  | none => none
  | some x => some (x, queue.dropLast)

/-- `Channel.post_next(count)`: pop up to `count` posts with `deque.pop()` and
disseminate each in pop order.  Returns (posts disseminated in order,
remaining queue). -/
def Channel.post_next {α : Type} (queue : List α) (count : Nat) : List α × List α :=
  match count with
  | 0 => ([], queue)
  | Nat.succ n =>
    match Channel.popRight queue with
    | none => ([], queue)
    | some (x, rest) =>
      let r := Channel.post_next rest n
      (x :: r.1, r.2)

/-! ## RSS reconciliation state and seen-set (rss.py, reporter.py) -/

structure FeedEntry where
  guid : String
  link : String
  updated : Nat
deriving DecidableEq

/-- The seen-set: a Python dict mapping GUID to last-observed-modified
timestamp, kept in insertion order. -/
abbrev SeenMap := List (String × Nat)

/-- Python dict assignment `d[k] = v`: update in place if the key exists,
append otherwise. -/
def dictSet (d : SeenMap) (k : String) (v : Nat) : SeenMap :=
  match d with
  | [] => [(k, v)]
  | (k2, v2) :: rest => if k2 = k then (k, v) :: rest else (k2, v2) :: dictSet rest k v

/-- Python dict lookup `d[k]` / `k in d`: the value at the first (unique)
occurrence of the key. -/
def dictGet : SeenMap → String → Option Nat
  | [], _ => none
  | (k2, v2) :: rest, k => if k2 = k then some v2 else dictGet rest k

/-- The dict comprehension `{e.guid: dt(e) for e in entries}`. -/
def dictOfEntries (entries : List FeedEntry) : SeenMap :=
  entries.foldl (fun d e => dictSet d e.guid e.updated) []

/-- Mutable reporter state shared by `Reporter` and `RSSReporter`:
the persisted last-check watermark, the seen-set, and the rate-limit
fields consulted by `Reporter._web_get`. -/
structure RSSState where
  last_check : Nat
  seen_in_feed : SeenMap
  wait_until : Nat
  last_web_request : Nat
  wait_every_time : Nat
deriving DecidableEq

/-- `RSSReporter._get_latest_entries`: `Reporter._web_get` raises
`ReporterWebWait` when `max(_wait_until, _last_web_request + _wait_every_time)
> now`, which `_get_latest_entries` catches and turns into an empty list with
no state change.  Otherwise it builds the guid→date dict of the feed, keeps
the pairs that are absent from the seen-set or strictly newer than the
recorded timestamp (`last_seen < dt`), records those in the seen-set, and
returns the feed entries whose guid qualified. -/
def RSSReporter.get_latest_entries (st : RSSState) (now : Nat) (entries : List FeedEntry) :
    List FeedEntry × RSSState :=
  if now < max st.wait_until (st.last_web_request + st.wait_every_time) then
    ([], st)
  else
    let guids := dictOfEntries entries
    let new_guids := guids.filter (fun p =>
      match dictGet st.seen_in_feed p.1 with
      | none => true
      | some last_seen => decide (last_seen < p.2))
    let seen2 := new_guids.foldl (fun s p => dictSet s p.1 p.2) st.seen_in_feed
    (entries.filter (fun e => (dictGet new_guids e.guid).isSome),
     { st with seen_in_feed := seen2, last_web_request := now })

/-- Python tuple comparison `(guid, dt) < (guid2, dt2)`. -/
def pairLt (a b : String × Nat) : Bool :=
  decide (a.1 < b.1) || (decide (a.1 = b.1) && decide (a.2 < b.2))

/-- Insert into a descending-sorted list after all pairs that are not
smaller, modelling one step of Python's stable `sorted(..., reverse=True)`. -/
def insertPairDesc (e : String × Nat) : SeenMap → SeenMap
  | [] => [e]
  | x :: xs => if pairLt x e then e :: x :: xs else x :: insertPairDesc e xs

/-- Stable descending sort by the `(guid, timestamp)` pair, the effect of
`sorted(self.seen_in_feed.items(), key=lambda item: item, reverse=True)`. -/
def sortPairsDesc (l : SeenMap) : SeenMap :=
  l.foldl (fun acc e => insertPairDesc e acc) []

/-- `RSSReporter._cache_seen_write`: sort the seen-set descending by the
`(guid, timestamp)` pair and persist the first `max(500, len(sorted_seen))`
entries of the sorted dict. -/
def RSSReporter.cache_seen_write (seen : SeenMap) : SeenMap :=
  let sorted_seen := sortPairsDesc seen
  let max_cached := max 500 sorted_seen.length
  sorted_seen.take max_cached

/-! ## Pleiades revision histories (pleiades.py) -/

/-- One revision record.  A Python history event carries `modified` (an ISO
datetime) plus exactly one of an `action` key or a `comment` key; the model
keeps `action` optional and lets `comment` hold the free text. -/
structure HEvent where
  modified : Nat
  action : Option String
  comment : String
deriving DecidableEq

/-- `try: comment = e["action"] except KeyError: comment = e["comment"]`. -/
def statusOf (e : HEvent) : String :=
  match e.action with
  | some a => a
  | none => e.comment

/-- Insert into a descending-sorted event list after all events with a
later-or-equal date (one step of Python's stable descending sort). -/
def insertEventDesc (e : HEvent) : List HEvent → List HEvent
  | [] => [e]
  | x :: xs => if x.modified < e.modified then e :: x :: xs else x :: insertEventDesc e xs

/-- `sorted(history, key=lambda e: e["modified"], reverse=True)`. -/
def sortEventsDesc (l : List HEvent) : List HEvent :=
  l.foldl (fun acc e => insertEventDesc e acc) []

/-- A Pleiades place JSON document, reduced to the fields the checked claims
read: its id and revision history. -/
structure Place where
  id : String
  history : List HEvent
deriving DecidableEq

/-- `PleiadesRSSReporter._get_event_dates`: collect every event into
`modification_events` and every event whose `action` is "Publish externally"
into `publication_events`, sort both descending, and return
`(publication_events[-1], modification_events[0])` — the earliest publish
date and the latest modification date.  Indexing an empty list raises
`IndexError` (modelled `none`): this happens when the history is empty or
contains no "Publish externally" action. -/
def PleiadesRSSReporter.get_event_dates (pleiades_json : Place) : Option (Nat × Nat) :=
  let publication_events :=
    sortEventsDesc (pleiades_json.history.filter (fun e => e.action = some "Publish externally"))
  let modification_events := sortEventsDesc pleiades_json.history
  match modification_events.head?, publication_events.getLast? with
  | some m, some p => some (p.modified, m.modified)
  | _, _ => none

/-- The collection walk of `PleiadesRSSReporter._get_recent_history`: walk the
descending-sorted history from the newest event, collecting events, and stop
(exclusive) at the first event whose status is "Publish externally"
(flag `false`) or "Baseline created" (flag `true`); walking off the end also
leaves the flag `false`.  Returns (collected events, `from_baseline`). -/
def collectUntilBoundary : List HEvent → List HEvent × Bool
  | [] => ([], false)
  | e :: rest =>
    if statusOf e = "Publish externally" then ([], false)
    else if statusOf e = "Baseline created" then ([], true)
    else
      let r := collectUntilBoundary rest
      (e :: r.1, r.2)

/-- The second pass of `_get_recent_history`: re-walk the collected events
from the newest and stop at the first event dated before the cutoff,
truncating it and everything after it. -/
def pruneEarly (cutoff : Nat) : List HEvent → List HEvent
  | [] => []
  | e :: rest => if e.modified < cutoff then [] else e :: pruneEarly cutoff rest

/-- `PleiadesRSSReporter._get_recent_history`: sort descending, collect up to
the first publish/baseline boundary, apply the early-event truncation pass
only when the boundary was not "Baseline created", and finally discard the
whole list when none of its events falls on or after the cutoff date. -/
def PleiadesRSSReporter.get_recent_history (obj_history : List HEvent) (cutoff_date : Nat) :
    List HEvent :=
  let full_history := sortEventsDesc obj_history
  let walk := collectUntilBoundary full_history
  let recent_history := if walk.2 then walk.1 else pruneEarly cutoff_date walk.1
  let after_cutoff := recent_history.filter (fun e => decide (cutoff_date ≤ e.modified))
  if after_cutoff.isEmpty then [] else recent_history

/-- Truncation of a timestamp to the start of its UTC calendar day, the
effect of `datetime(year=t.year, month=t.month, day=t.day, tzinfo=utc)`. -/
def dayFloor (t : Nat) : Nat := t / 86400 * 86400

/-- The classification loop of `PleiadesRSSReporter._determine_changed`: a
place whose first publication date falls on or after the truncated watermark
day is new; otherwise, if its latest modification does, it is updated;
otherwise it is dropped. -/
def classifyPlaces (day : Nat) : List (Place × Nat × Nat) → List Place × List Place
  | [] => ([], [])
  | (pj, pub, m) :: rest =>
    let r := classifyPlaces day rest
    if day ≤ pub then (pj :: r.1, r.2)
    else if day ≤ m then (r.1, pj :: r.2)
    else r

/-- The first loop of `_determine_changed`: compute `_get_event_dates` for
every fetched place JSON; an exception for any one place aborts the whole
batch. -/
def PleiadesRSSReporter.collect_event_dates : List Place → Option (List (Place × Nat × Nat))
  | [] => some []
  | pj :: rest =>
    match PleiadesRSSReporter.get_event_dates pj, PleiadesRSSReporter.collect_event_dates rest with
    | some d, some tail => some ((pj, d.1, d.2) :: tail)
    | _, _ => none

/-- `PleiadesRSSReporter._determine_changed`. -/
def PleiadesRSSReporter.determine_changed (pleiades_json : List Place) (last_check : Nat) :
    Option (List Place × List Place) :=
  (PleiadesRSSReporter.collect_event_dates pleiades_json).map
    (fun l => classifyPlaces (dayFloor last_check) l)

/-- `PleiadesRSSReporter.check`: get the latest feed entries (empty when
rate-limited), fetch the place JSON for each and classify new vs updated
(skipped when there are no new records), set `last_check` to the current
instant, and emit one report per classified place ("new" reports first).
Reports are modelled as the classified place tagged with its nature; an
uncaught exception during classification yields `none`. -/
def PleiadesRSSReporter.check (st : RSSState) (now : Nat) (entries : List FeedEntry)
    (getJson : String → Place) : Option (List (Place × String) × RSSState) :=
  let fetched := RSSReporter.get_latest_entries st now entries
  let new_records := fetched.1
  let st1 := fetched.2
  let this_check := now
  let outcome :=
    if new_records.isEmpty then some ([], [])
    else PleiadesRSSReporter.determine_changed (new_records.map (fun r => getJson r.link)) st.last_check
  match outcome with
  | none => none
  | some (new_places, updated_places) =>
    some (new_places.map (fun p => (p, "new")) ++ updated_places.map (fun p => (p, "updated")),
          { st1 with last_check := this_check })

/-! ## BetterRSSHandler date normalization (rss.py) -/

/-- A raw feed entry as seen by `BetterRSSHandler._normalize_dates`:
`published_parsed` and `updated_parsed` may each be absent. -/
structure RawEntry where
  guid : String
  published : Option Nat
  updated : Option Nat
deriving DecidableEq

/-- `max([dt for dt in [published, updated] if dt is not None])`: `max` of
the present dates, raising `ValueError` (modelled `none`) when both are
absent. -/
def BetterRSSHandler.entry_latest_date (e : RawEntry) : Option Nat :=
  match e.published, e.updated with
  | none, none => none
  | some p, none => some p
  | none, some u => some u
  | some p, some u => some (max p u)

/-- `BetterRSSHandler._normalize_dates`: pair every entry with its latest
date; an entry with neither date raises, aborting the whole batch. -/
def BetterRSSHandler.normalize_dates : List RawEntry → Option (List (RawEntry × Nat))
  | [] => some []
  | e :: rest =>
    match BetterRSSHandler.entry_latest_date e with
    | none => none
    | some d =>
      match BetterRSSHandler.normalize_dates rest with
      | none => none
      | some tail => some ((e, d) :: tail)

/-! ## Zotero versioned-API reconciliation (zotero.py) -/

structure ZotRecord where
  key : String
  dateAdded : Nat
deriving DecidableEq

/-- `ZoteroReporter` watermark and rate-limit state. -/
structure ZotState where
  wait_until : Nat
  wait_every_time : Nat
  last_web_request : Nat
  last_zot_version : String
  last_check : Nat
deriving DecidableEq

/-- The Zotero server as seen through a normal (non-backoff, non-429)
exchange: its current library version and the delta record set it returns
for a modified-since-version request. -/
structure ZotEnv where
  server_version : String
  candidates : List ZotRecord
deriving DecidableEq

/-- `ZoteroReporter._check_for_latest_version`: a HEAD probe with
`If-Modified-Since-Version`; a 304 answer returns the reference version
unchanged, otherwise the server's `Last-Modified-Version` header. -/
def ZoteroReporter.check_for_latest_version (env : ZotEnv) (reference_zot_version : String) :
    String :=
  if env.server_version = reference_zot_version then reference_zot_version
  else env.server_version

/-- `ZoteroReporter._zot_get_new_records`: fetch the delta record set and
keep exactly the records whose `dateAdded` strictly exceeds the watermark
timestamp. -/
def ZoteroReporter.zot_get_new_records (env : ZotEnv) (since_datetime : Nat) : List ZotRecord :=
  env.candidates.filter (fun d => decide (since_datetime < d.dateAdded))

/-- `ZoteroReporter.check`: skip while rate-limited; probe the library
version; when it differs from the watermark version, fetch the delta set,
filter it by `dateAdded > last_check`, and update both watermark components;
when unchanged, fetch nothing and leave the state untouched.  The third
component records whether a record fetch was performed. -/
def ZoteroReporter.check (st : ZotState) (env : ZotEnv) (now : Nat) :
    List ZotRecord × ZotState × Bool :=
  if st.wait_until > now then ([], st, false)
  else if st.wait_every_time ≠ 0 ∧ st.last_web_request + st.wait_every_time > now then
    ([], st, false)
  else
    let old_version := st.last_zot_version
    let new_version := ZoteroReporter.check_for_latest_version env old_version
    if new_version ≠ old_version then
      let new_records := ZoteroReporter.zot_get_new_records env st.last_check
      (new_records,
       { st with last_zot_version := new_version, last_check := now },
       true)
    else ([], st, false)

/-! ## Report markdown normalization (report.py)

The `markdown` setter first whitespace-normalizes its input through the
external `textnorm` library (`norm(s, preserve=["\n"], trim=False)`), which
is an external collaborator; the model therefore operates on the normalized
string, represented as a `List Char`.  The setter then strips leading and
trailing newline characters with two `while` loops that index the string and
so raise `IndexError` on an empty string. -/

/-- `while s_clean[0] == "\n": s_clean = s_clean[1:]` — indexing an empty
string raises (`none`). -/
def dropLeadingNewlines : List Char → Option (List Char)
  | [] => none
  | c :: rest => if c = '\n' then dropLeadingNewlines rest else some (c :: rest)

/-- `while s_clean[-1] == "\n": s_clean = s_clean[:-1]`, expressed as the
leading-newline loop on the reversed string. -/
def dropTrailingNewlines (l : List Char) : Option (List Char) :=
  (dropLeadingNewlines l.reverse).map List.reverse

/-- The body of the `PleiadesReport.markdown` setter after normalization:
strip leading then trailing newlines, failing with `IndexError` when the
string runs empty. -/
def PleiadesReport.markdown_setter (s_clean : List Char) : Option (List Char) :=
  (dropLeadingNewlines s_clean).bind dropTrailingNewlines

/-- Modelled from the spec: "strips all leading/trailing newline characters
... preserving internal newlines" — the spec-side stripping used to compare
the setter's stored value against. -/
def specStripNewlines (l : List Char) : List Char :=
  ((l.dropWhile (fun c => c = '\n')).reverse.dropWhile (fun c => c = '\n')).reverse

/-- The whitespace characters recognized by Python's `str.isspace` core set,
used to express "entirely blank". -/
def isPythonSpace (c : Char) : Bool :=
  c = ' ' || c = '\t' || c = '\n' || c = '\r' || c = '\x0b' || c = '\x0c'

/-! ## Helper lemmas -/

theorem pruneEarly_subset (cutoff : Nat) (l : List HEvent) :
    ∀ e ∈ pruneEarly cutoff l, e ∈ l := by
  induction l with
  | nil => intro e he; simp [pruneEarly] at he
  | cons x xs ih =>
    intro e he
    by_cases hx : x.modified < cutoff
    · simp [pruneEarly, hx] at he
    · simp only [pruneEarly, if_neg hx, List.mem_cons] at he
      rcases he with h | h
      · exact List.mem_cons.mpr (Or.inl h)
      · exact List.mem_cons.mpr (Or.inr (ih e h))

theorem pruneEarly_ge (cutoff : Nat) (l : List HEvent) :
    ∀ e ∈ pruneEarly cutoff l, cutoff ≤ e.modified := by
  induction l with
  | nil => intro e he; simp [pruneEarly] at he
  | cons x xs ih =>
    intro e he
    by_cases hx : x.modified < cutoff
    · simp [pruneEarly, hx] at he
    · simp only [pruneEarly, if_neg hx, List.mem_cons] at he
      rcases he with h | h
      · subst h; omega
      · exact ih e h

theorem collectUntilBoundary_no_boundary (l : List HEvent) :
    ∀ e ∈ (collectUntilBoundary l).1,
      statusOf e ≠ "Publish externally" ∧ statusOf e ≠ "Baseline created" := by
  induction l with
  | nil => intro e he; simp [collectUntilBoundary] at he
  | cons x xs ih =>
    intro e he
    by_cases hp : statusOf x = "Publish externally"
    · simp [collectUntilBoundary, hp] at he
    · by_cases hb : statusOf x = "Baseline created"
      · simp [collectUntilBoundary, hp, hb] at he
      · simp only [collectUntilBoundary, if_neg hp, if_neg hb, List.mem_cons] at he
        rcases he with h | h
        · subst h; exact ⟨hp, hb⟩
        · exact ih e h

theorem insertPairDesc_length (e : String × Nat) (l : SeenMap) :
    (insertPairDesc e l).length = l.length + 1 := by
  induction l with
  | nil => rfl
  | cons x xs ih =>
    by_cases h : pairLt x e
    · simp [insertPairDesc, h]
    · simp [insertPairDesc, h, ih]

theorem insertPairDesc_mem (e x : String × Nat) (l : SeenMap) :
    x ∈ insertPairDesc e l ↔ x = e ∨ x ∈ l := by
  induction l with
  | nil => simp [insertPairDesc]
  | cons y ys ih =>
    by_cases h : pairLt y e
    · simp [insertPairDesc, h]
    · simp only [insertPairDesc, if_neg h, List.mem_cons, ih]
      tauto

theorem sortPairsDesc_length_aux (l acc : SeenMap) :
    (l.foldl (fun a e => insertPairDesc e a) acc).length = acc.length + l.length := by
  induction l generalizing acc with
  | nil => simp
  | cons x xs ih =>
    simp only [List.foldl_cons]
    rw [ih, insertPairDesc_length]
    simp only [List.length_cons]
    omega

theorem sortPairsDesc_length (l : SeenMap) : (sortPairsDesc l).length = l.length := by
  have h := sortPairsDesc_length_aux l []
  simpa [sortPairsDesc] using h

theorem sortPairsDesc_mem_aux (l acc : SeenMap) (x : String × Nat) :
    x ∈ acc ∨ x ∈ l → x ∈ l.foldl (fun a e => insertPairDesc e a) acc := by
  induction l generalizing acc with
  | nil => intro h; simpa using h.elim id (by simp)
  | cons y ys ih =>
    intro h
    simp only [List.foldl_cons]
    apply ih
    rcases h with h | h
    · exact Or.inl ((insertPairDesc_mem y x acc).mpr (Or.inr h))
    · rcases List.mem_cons.mp h with h | h
      · exact Or.inl ((insertPairDesc_mem y x acc).mpr (Or.inl h))
      · exact Or.inr h

theorem sortPairsDesc_mem (l : SeenMap) (x : String × Nat) (h : x ∈ l) :
    x ∈ sortPairsDesc l :=
  sortPairsDesc_mem_aux l [] x (Or.inr h)

theorem dictSet_of_fresh (d : SeenMap) (k : String) (v : Nat) (h : dictGet d k = none) :
    dictSet d k v = d ++ [(k, v)] := by
  induction d with
  | nil => rfl
  | cons p rest ih =>
    obtain ⟨k2, v2⟩ := p
    by_cases hk : k2 = k
    · simp [dictGet, hk] at h
    · simp only [dictGet, if_neg hk] at h
      simp [dictSet, hk, ih h]

theorem dictGet_append_of_none (a b : SeenMap) (k : String) (h : dictGet a k = none) :
    dictGet (a ++ b) k = dictGet b k := by
  induction a with
  | nil => rfl
  | cons p rest ih =>
    obtain ⟨k2, v2⟩ := p
    by_cases hk : k2 = k
    · simp [dictGet, hk] at h
    · simp only [dictGet, if_neg hk] at h
      simp [dictGet, hk, ih h]

theorem dictOfEntries_aux (entries : List FeedEntry) (acc : SeenMap)
    (hfresh : ∀ e ∈ entries, dictGet acc e.guid = none)
    (hnodup : (entries.map FeedEntry.guid).Nodup) :
    entries.foldl (fun d e => dictSet d e.guid e.updated) acc =
      acc ++ entries.map (fun e => (e.guid, e.updated)) := by
  induction entries generalizing acc with
  | nil => simp
  | cons e rest ih =>
    simp only [List.foldl_cons]
    have hset : dictSet acc e.guid e.updated = acc ++ [(e.guid, e.updated)] :=
      dictSet_of_fresh acc e.guid e.updated (hfresh e (List.mem_cons_self e rest))
    rw [hset]
    have hnodup2 : (rest.map FeedEntry.guid).Nodup := (List.nodup_cons.mp hnodup).2
    have hhead : e.guid ∉ rest.map FeedEntry.guid := (List.nodup_cons.mp hnodup).1
    have hfresh2 : ∀ e2 ∈ rest, dictGet (acc ++ [(e.guid, e.updated)]) e2.guid = none := by
      intro e2 he2
      rw [dictGet_append_of_none _ _ _ (hfresh e2 (List.mem_cons_of_mem e he2))]
      have hne : e.guid ≠ e2.guid := by
        intro hcontra
        exact hhead (hcontra ▸ List.mem_map_of_mem FeedEntry.guid he2)
      simp [dictGet, hne]
    rw [ih _ hfresh2 hnodup2, List.append_assoc]
    rfl

theorem dictOfEntries_of_nodup (entries : List FeedEntry)
    (hnodup : (entries.map FeedEntry.guid).Nodup) :
    dictOfEntries entries = entries.map (fun e => (e.guid, e.updated)) := by
  have h := dictOfEntries_aux entries [] (by intro e _; rfl) hnodup
  simpa [dictOfEntries] using h

theorem dictGet_none_filter (l : SeenMap) (pr : String × Nat → Bool) (k : String)
    (h : dictGet l k = none) : dictGet (l.filter pr) k = none := by
  induction l with
  | nil => rfl
  | cons p rest ih =>
    obtain ⟨k2, v2⟩ := p
    by_cases hk : k2 = k
    · simp [dictGet, hk] at h
    · simp only [dictGet, if_neg hk] at h
      by_cases hp : pr (k2, v2)
      · simp [List.filter, hp, dictGet, hk, ih h]
      · simp [List.filter, hp, ih h]

theorem dictGet_none_of_not_key (l : SeenMap) (k : String) (h : k ∉ l.map Prod.fst) :
    dictGet l k = none := by
  induction l with
  | nil => rfl
  | cons p rest ih =>
    obtain ⟨k2, v2⟩ := p
    simp only [List.map_cons, List.mem_cons] at h
    push_neg at h
    have hne : k2 ≠ k := fun hc => h.1 hc.symm
    simp only [dictGet, if_neg hne]
    exact ih h.2

theorem dictGet_filter (l : SeenMap) (pr : String × Nat → Bool) (k : String)
    (hnodup : (l.map Prod.fst).Nodup) :
    dictGet (l.filter pr) k =
      match dictGet l k with
      | none => none
      | some v => if pr (k, v) then some v else none := by
  induction l with
  | nil => rfl
  | cons p rest ih =>
    obtain ⟨k2, v2⟩ := p
    have hnodup2 : (rest.map Prod.fst).Nodup := (List.nodup_cons.mp hnodup).2
    have hhead : k2 ∉ rest.map Prod.fst := (List.nodup_cons.mp hnodup).1
    by_cases hk : k2 = k
    · subst hk
      have hrest : dictGet rest k2 = none := dictGet_none_of_not_key rest k2 hhead
      by_cases hp : pr (k2, v2)
      · simp [List.filter, hp, dictGet]
      · simp only [List.filter_cons, hp]
        simp only [Bool.false_eq_true, if_false]
        rw [dictGet_none_filter rest pr k2 hrest]
        simp [dictGet, hp]
    · by_cases hp : pr (k2, v2)
      · simp only [List.filter_cons, hp, if_true, dictGet, if_neg hk]
        exact ih hnodup2
      · simp only [List.filter_cons, hp, Bool.false_eq_true, if_false, dictGet, if_neg hk]
        exact ih hnodup2

theorem dictGet_map_of_mem (entries : List FeedEntry) (e : FeedEntry)
    (hnodup : (entries.map FeedEntry.guid).Nodup) (he : e ∈ entries) :
    dictGet (entries.map (fun e2 => (e2.guid, e2.updated))) e.guid = some e.updated := by
  induction entries with
  | nil => simp at he
  | cons x rest ih =>
    have hnodup2 : (rest.map FeedEntry.guid).Nodup := (List.nodup_cons.mp hnodup).2
    have hhead : x.guid ∉ rest.map FeedEntry.guid := (List.nodup_cons.mp hnodup).1
    rcases List.mem_cons.mp he with h | h
    · subst h
      simp [dictGet]
    · have hne : x.guid ≠ e.guid := by
        intro hcontra
        exact hhead (hcontra ▸ List.mem_map_of_mem FeedEntry.guid h)
      simp only [List.map_cons, dictGet, if_neg hne]
      exact ih hnodup2 h

theorem dropLeadingNewlines_none_iff (l : List Char) :
    dropLeadingNewlines l = none ↔ ∀ c ∈ l, c = '\n' := by
  induction l with
  | nil => simp [dropLeadingNewlines]
  | cons c rest ih =>
    by_cases hc : c = '\n'
    · simp [dropLeadingNewlines, hc, ih]
    · simp [dropLeadingNewlines, hc]

theorem dropLeadingNewlines_eq_dropWhile (l : List Char) (h : ∃ c ∈ l, c ≠ '\n') :
    dropLeadingNewlines l = some (l.dropWhile (fun c => c = '\n')) := by
  induction l with
  | nil => simp at h
  | cons c rest ih =>
    by_cases hc : c = '\n'
    · have h2 : ∃ c2 ∈ rest, c2 ≠ '\n' := by
        rcases h with ⟨c2, hm, hne⟩
        rcases List.mem_cons.mp hm with heq | hm2
        · exact absurd (heq ▸ hc) hne
        · exact ⟨c2, hm2, hne⟩
      simp [dropLeadingNewlines, hc, List.dropWhile, ih h2]
    · simp [dropLeadingNewlines, hc, List.dropWhile]

theorem dropLeadingNewlines_some_exists (l t : List Char)
    (h : dropLeadingNewlines l = some t) : ∃ c ∈ t, c ≠ '\n' := by
  induction l with
  | nil => simp [dropLeadingNewlines] at h
  | cons c rest ih =>
    by_cases hc : c = '\n'
    · simp only [dropLeadingNewlines, if_pos hc] at h
      exact ih h
    · simp only [dropLeadingNewlines, if_neg hc, Option.some.injEq] at h
      exact ⟨c, h ▸ List.mem_cons_self c rest, hc⟩

theorem exists_non_newline_dropWhile (l : List Char) (h : ∃ c ∈ l, c ≠ '\n') :
    ∃ c ∈ l.dropWhile (fun c => c = '\n'), c ≠ '\n' := by
  induction l with
  | nil => simp at h
  | cons c rest ih =>
    by_cases hc : c = '\n'
    · have h2 : ∃ c2 ∈ rest, c2 ≠ '\n' := by
        rcases h with ⟨c2, hm, hne⟩
        rcases List.mem_cons.mp hm with heq | hm2
        · exact absurd (heq ▸ hc) hne
        · exact ⟨c2, hm2, hne⟩
      simpa [List.dropWhile_cons, hc] using ih h2
    · rw [List.dropWhile_cons]
      simp only [hc, decide_eq_false_iff_not.mpr hc]
      exact ⟨c, List.mem_cons_self c rest, hc⟩

theorem normalize_dates_none_of_malformed (entries : List RawEntry) (e : RawEntry)
    (he : e ∈ entries) (hdates : BetterRSSHandler.entry_latest_date e = none) :
    BetterRSSHandler.normalize_dates entries = none := by
  induction entries with
  | nil => cases he
  | cons x rest ih =>
    rcases List.mem_cons.mp he with h | h
    · subst h
      simp [BetterRSSHandler.normalize_dates, hdates]
    · have hrest := ih h
      cases hx : BetterRSSHandler.entry_latest_date x with
      | none => simp [BetterRSSHandler.normalize_dates, hx]
      | some d => simp [BetterRSSHandler.normalize_dates, hx, hrest]

theorem get_event_dates_none_of_no_publication (pj : Place)
    (hnopub : ∀ e ∈ pj.history, e.action ≠ some "Publish externally") :
    PleiadesRSSReporter.get_event_dates pj = none := by
  have hfilter : pj.history.filter (fun e => e.action = some "Publish externally") = [] := by
    rw [List.filter_eq_nil_iff]
    intro a ha
    simpa using hnopub a ha
  cases hm : (sortEventsDesc pj.history).head? with
  | none => simp [PleiadesRSSReporter.get_event_dates, hfilter, hm, sortEventsDesc]
  | some m => simp [PleiadesRSSReporter.get_event_dates, hfilter, hm, sortEventsDesc]

/-! ## Claim theorems -/

/-- C1: the claim states that `Channel.post_next` pops in FIFO order — that
`enqueue([a,b,c])` followed by `post_next(2)` disseminates `a` then `b` and
leaves `[c]`.  The code pops with `deque.pop()`, which takes from the same
end `extend` appends to, so it actually disseminates `c` then `b` and leaves
`[a]`: a LIFO order that also makes the `first=True` priority flag postpone
rather than advance posts.  This theorem evaluates the model at the claim's
own concrete input, exhibiting the divergence. -/
theorem channel_post_next_pops_lifo_at_claim_input :
    Channel.post_next (Channel.enqueue ([] : List Nat) [1, 2, 3] false) 2 = ([3, 2], [1]) := by
  decide

/-- C10: the claim states that a priority batch `enqueue([x, y], first=True)`
is inserted head-first in reversed relative order (true: the queue becomes
`[y, x]`) and is therefore later popped in the reverse of the order given.
Because `post_next` pops from the tail, the batch is actually popped in the
order given (`x` then `y`), not reversed; the reversal claim holds only for
the intended head-end (FIFO) popping.  This theorem evaluates the model at
the claim's input. -/
theorem channel_priority_enqueue_pop_order_at_claim_input :
    Channel.enqueue ([] : List Nat) [1, 2] true = [2, 1] ∧
    Channel.post_next (Channel.enqueue ([] : List Nat) [1, 2] true) 2 = ([1, 2], []) := by
  exact ⟨by decide, by decide⟩

/-- C2 (counterexample): at a state whose rate-limit marker (10) lies after
"now" (5) and whose persisted watermark is `last_check = 3`,
`PleiadesRSSReporter.check` returns an empty report list but sets
`last_check` to 5 — the persisted timestamp watermark is mutated, contrary
to the claim that it is left unchanged. -/
theorem pleiades_check_rate_limited_moves_watermark :
    PleiadesRSSReporter.check
      { last_check := 3, seen_in_feed := [("g", 7)], wait_until := 10,
        last_web_request := 0, wait_every_time := 0 } 5 []
      (fun _ => { id := "", history := [] }) =
      some ([], { last_check := 5, seen_in_feed := [("g", 7)], wait_until := 10,
                  last_web_request := 0, wait_every_time := 0 }) ∧
    (5 : Nat) ≠ 3 := by
  exact ⟨by decide, by decide⟩

/-- C2 (amended): whenever "now" is before the reporter's rate-limit
"do not request before" marker, `check()` returns an empty report list and
leaves the seen-set (and every other field but one) unchanged, but it still
advances the persisted `last_check` timestamp to the current instant. -/
theorem pleiades_check_rate_limited_empty_seen_unchanged (st : RSSState) (now : Nat)
    (entries : List FeedEntry) (getJson : String → Place)
    (h : now < st.wait_until) :
    PleiadesRSSReporter.check st now entries getJson =
      some ([], { st with last_check := now }) := by
  have hmax : now < max st.wait_until (st.last_web_request + st.wait_every_time) :=
    lt_of_lt_of_le h (le_max_left _ _)
  simp [PleiadesRSSReporter.check, RSSReporter.get_latest_entries, hmax]

/-- C2 (witness): the amended theorem applied at a concrete rate-limited
state. -/
theorem pleiades_check_rate_limited_empty_seen_unchanged_witness :
    (5 : Nat) < 10 ∧
    PleiadesRSSReporter.check
      { last_check := 3, seen_in_feed := [("g", 7)], wait_until := 10,
        last_web_request := 0, wait_every_time := 0 } 5 []
      (fun _ => { id := "", history := [] }) =
      some ([], { last_check := 5, seen_in_feed := [("g", 7)], wait_until := 10,
                  last_web_request := 0, wait_every_time := 0 }) :=
  ⟨by decide,
   pleiades_check_rate_limited_empty_seen_unchanged
     { last_check := 3, seen_in_feed := [("g", 7)], wait_until := 10,
       last_web_request := 0, wait_every_time := 0 } 5 []
     (fun _ => { id := "", history := [] }) (by decide)⟩

/-- C5 (counterexample): a batch holding one well-formed entry and one entry
with neither a published nor an updated date is aborted whole by
`_normalize_dates` (`max([])` raises `ValueError`), and a place history with
no "Publish externally" event makes `_get_event_dates` raise `IndexError`
(`publication_events[-1]` on an empty list) — the malformed item is not
skipped, contrary to the claim. -/
theorem malformed_item_aborts_batch_at_concrete_input :
    BetterRSSHandler.normalize_dates
      [{ guid := "good", published := some 10, updated := some 11 },
       { guid := "bad", published := none, updated := none }] = none ∧
    PleiadesRSSReporter.get_event_dates
      { id := "p", history := [{ modified := 5, action := none, comment := "edit" }] } = none := by
  exact ⟨by decide, by decide⟩

/-- C5 (amended): a batch containing a feed entry with neither date, or a
place whose history has no "Publish externally" event, makes the respective
processing step raise (modelled `none`), aborting the whole batch rather
than skipping the malformed item. -/
theorem malformed_item_aborts_batch (entries : List RawEntry) (pj : Place)
    (hbad : ∃ e ∈ entries, e.published = none ∧ e.updated = none)
    (hnopub : ∀ e ∈ pj.history, e.action ≠ some "Publish externally") :
    BetterRSSHandler.normalize_dates entries = none ∧
    PleiadesRSSReporter.get_event_dates pj = none := by
  rcases hbad with ⟨e, he, hp, hu⟩
  refine ⟨normalize_dates_none_of_malformed entries e he ?_,
          get_event_dates_none_of_no_publication pj hnopub⟩
  simp [BetterRSSHandler.entry_latest_date, hp, hu]

/-- C5 (witness): the amended theorem applied at a concrete malformed batch
and a concrete publication-free history. -/
theorem malformed_item_aborts_batch_witness :
    (∃ e ∈ [({ guid := "bad", published := none, updated := none } : RawEntry)],
        e.published = none ∧ e.updated = none) ∧
    (∀ e ∈ ({ id := "p2",
              history := [{ modified := 7, action := some "Create", comment := "" }] } : Place).history,
        e.action ≠ some "Publish externally") ∧
    (BetterRSSHandler.normalize_dates
        [{ guid := "bad", published := none, updated := none }] = none ∧
     PleiadesRSSReporter.get_event_dates
        { id := "p2", history := [{ modified := 7, action := some "Create", comment := "" }] } = none) :=
  ⟨by decide, by decide,
   malformed_item_aborts_batch _ _ (by decide) (by decide)⟩

/-- C6: in versioned-API mode, when the probe shows the library version is
unchanged, `ZoteroReporter.check` fetches no records and returns an empty
list with the watermark (version token and timestamp) untouched; when the
version differs, it fetches the delta set and reports exactly the records
whose `dateAdded` strictly exceeds the watermark timestamp, updating both
watermark components. -/
theorem zotero_check_version_gate (st : ZotState) (env : ZotEnv) (now : Nat)
    (h1 : ¬ st.wait_until > now)
    (h2 : ¬ (st.wait_every_time ≠ 0 ∧ st.last_web_request + st.wait_every_time > now)) :
    (env.server_version = st.last_zot_version →
       ZoteroReporter.check st env now = ([], st, false)) ∧
    (env.server_version ≠ st.last_zot_version →
       ZoteroReporter.check st env now =
         (env.candidates.filter (fun d => decide (st.last_check < d.dateAdded)),
          { st with last_zot_version := env.server_version, last_check := now },
          true)) := by
  constructor
  · intro heq
    simp [ZoteroReporter.check, ZoteroReporter.check_for_latest_version, h1, h2, heq]
  · intro hne
    simp [ZoteroReporter.check, ZoteroReporter.check_for_latest_version,
          ZoteroReporter.zot_get_new_records, h1, h2, hne]

/-- C6 (witness): the theorem applied at a concrete state whose library
version has moved from "100" to "101": only the record added strictly after
the watermark timestamp 10 is reported, and the watermark becomes
("101", 20). -/
theorem zotero_check_version_gate_witness :
    ZoteroReporter.check
      { wait_until := 0, wait_every_time := 0, last_web_request := 0,
        last_zot_version := "100", last_check := 10 }
      { server_version := "101",
        candidates := [{ key := "a", dateAdded := 9 }, { key := "b", dateAdded := 11 }] } 20 =
      ([{ key := "b", dateAdded := 11 }],
       { wait_until := 0, wait_every_time := 0, last_web_request := 0,
         last_zot_version := "101", last_check := 20 }, true) :=
  (zotero_check_version_gate
    { wait_until := 0, wait_every_time := 0, last_web_request := 0,
      last_zot_version := "100", last_check := 10 }
    { server_version := "101",
      candidates := [{ key := "a", dateAdded := 9 }, { key := "b", dateAdded := 11 }] } 20
    (by decide) (by decide)).2 (by decide)

theorem get_latest_entries_fst (st : RSSState) (now : Nat) (entries : List FeedEntry)
    (hwait : ¬ now < max st.wait_until (st.last_web_request + st.wait_every_time)) :
    (RSSReporter.get_latest_entries st now entries).1 =
      entries.filter (fun e =>
        (dictGet ((dictOfEntries entries).filter (fun p =>
          match dictGet st.seen_in_feed p.1 with
          | none => true
          | some last_seen => decide (last_seen < p.2))) e.guid).isSome) := by
  simp [RSSReporter.get_latest_entries, hwait]

/-- C3 (counterexample): with the seen-set recording GUID "g" at timestamp 5,
a feed entry for "g" whose modified-timestamp is exactly 5 is NOT classified
as new (`last_seen < dt` is strict), contradicting the claim that an entry
with `M >= T` — in particular `M = T` — is classified new. -/
theorem equal_timestamp_entry_not_classified_new :
    (RSSReporter.get_latest_entries
      { last_check := 0, seen_in_feed := [("g", 5)], wait_until := 0,
        last_web_request := 0, wait_every_time := 0 }
      0 [{ guid := "g", link := "l", updated := 5 }]).1 = [] := by
  decide

/-- C3 (amended): a feed entry is classified as new by
`RSSReporter._get_latest_entries` if and only if its GUID is absent from the
seen-set or its modified-timestamp STRICTLY exceeds the recorded last-seen
timestamp; an entry whose timestamp equals the recorded one is not new.
(Stated for feeds whose entries carry distinct GUIDs, as the guid→date dict
otherwise merges duplicates.) -/
theorem get_latest_entries_new_iff_strictly_newer (st : RSSState) (now : Nat)
    (entries : List FeedEntry) (e : FeedEntry)
    (hwait : ¬ now < max st.wait_until (st.last_web_request + st.wait_every_time))
    (hnodup : (entries.map FeedEntry.guid).Nodup)
    (he : e ∈ entries) :
    e ∈ (RSSReporter.get_latest_entries st now entries).1 ↔
      (dictGet st.seen_in_feed e.guid = none ∨
       ∃ last_seen, dictGet st.seen_in_feed e.guid = some last_seen ∧
         last_seen < e.updated) := by
  rw [get_latest_entries_fst st now entries hwait, List.mem_filter]
  rw [dictOfEntries_of_nodup entries hnodup]
  have hmapnodup : ((entries.map (fun e2 => (e2.guid, e2.updated))).map Prod.fst).Nodup := by
    simpa [List.map_map, Function.comp_def] using hnodup
  rw [dictGet_filter _ _ _ hmapnodup]
  rw [dictGet_map_of_mem entries e hnodup he]
  simp only [he, true_and]
  cases hseen : dictGet st.seen_in_feed e.guid with
  | none => simp
  | some last_seen =>
    by_cases hlt : last_seen < e.updated
    · simp [hlt]
    · simp [hlt]

/-- C3 (witness): the amended theorem at a concrete state: GUID "g" was last
seen at 5 and the entry is dated 6, so it is classified new because 5 < 6. -/
theorem get_latest_entries_new_iff_strictly_newer_witness :
    ({ guid := "g", link := "l", updated := 6 } : FeedEntry) ∈
      (RSSReporter.get_latest_entries
        { last_check := 0, seen_in_feed := [("g", 5)], wait_until := 0,
          last_web_request := 0, wait_every_time := 0 }
        0 [{ guid := "g", link := "l", updated := 6 }]).1 ↔
      (dictGet [("g", 5)] "g" = none ∨
       ∃ last_seen, dictGet [("g", 5)] "g" = some last_seen ∧ last_seen < 6) :=
  get_latest_entries_new_iff_strictly_newer
    { last_check := 0, seen_in_feed := [("g", 5)], wait_until := 0,
      last_web_request := 0, wait_every_time := 0 }
    0 [{ guid := "g", link := "l", updated := 6 }]
    { guid := "g", link := "l", updated := 6 }
    (by decide) (by decide) (by decide)

/-- C4: after every write, the persisted seen-set holds at most
`max(500, previous_size)` entries and retains every entry that was in the
seen-set being written — in particular no entry is ever evicted, so no entry
with an older modified-timestamp can survive while a newer one is evicted.
(`max(500, len)` is never smaller than `len`, so the `islice` truncation
keeps the whole sorted dict.) -/
theorem cache_seen_write_size_bound_and_retention (seen : SeenMap) :
    (RSSReporter.cache_seen_write seen).length ≤ max 500 seen.length ∧
    ∀ e ∈ seen, e ∈ RSSReporter.cache_seen_write seen := by
  have hlen : (sortPairsDesc seen).length = seen.length := sortPairsDesc_length seen
  have htake : RSSReporter.cache_seen_write seen = sortPairsDesc seen := by
    simp only [RSSReporter.cache_seen_write]
    exact List.take_of_length_le (le_max_right _ _)
  constructor
  · rw [htake, hlen]
    exact le_max_right 500 seen.length
  · intro e he
    rw [htake]
    exact sortPairsDesc_mem seen e he

/-- C4 (witness): the theorem applied at a one-entry seen-set. -/
theorem cache_seen_write_size_bound_and_retention_witness :
    (RSSReporter.cache_seen_write [("a", 1)]).length ≤ max 500 1 ∧
    ("a", 1) ∈ RSSReporter.cache_seen_write [("a", 1)] :=
  ⟨(cache_seen_write_size_bound_and_retention [("a", 1)]).1,
   (cache_seen_write_size_bound_and_retention [("a", 1)]).2 ("a", 1) (by decide)⟩

/-- C7: `_get_recent_history` returns the empty list whenever none of the
events collected by the boundary walk falls on or after the cutoff date
(the final `after_cutoff` guard discards the whole list). -/
theorem get_recent_history_empty_when_nothing_recent (history : List HEvent) (cutoff : Nat)
    (h : ∀ e ∈ (collectUntilBoundary (sortEventsDesc history)).1, e.modified < cutoff) :
    PleiadesRSSReporter.get_recent_history history cutoff = [] := by
  simp only [PleiadesRSSReporter.get_recent_history]
  have hrec : ∀ e ∈ (if (collectUntilBoundary (sortEventsDesc history)).2 then
      (collectUntilBoundary (sortEventsDesc history)).1
      else pruneEarly cutoff (collectUntilBoundary (sortEventsDesc history)).1),
      e.modified < cutoff := by
    intro e he
    by_cases hb : (collectUntilBoundary (sortEventsDesc history)).2
    · rw [if_pos hb] at he
      exact h e he
    · rw [if_neg hb] at he
      exact h e (pruneEarly_subset cutoff _ e he)
  have hfilter : (if (collectUntilBoundary (sortEventsDesc history)).2 then
      (collectUntilBoundary (sortEventsDesc history)).1
      else pruneEarly cutoff (collectUntilBoundary (sortEventsDesc history)).1).filter
      (fun e => decide (cutoff ≤ e.modified)) = [] := by
    rw [List.filter_eq_nil_iff]
    intro a ha
    simpa using Nat.not_le.mpr (hrec a ha)
  rw [hfilter]
  simp

/-- C7 (witness): the theorem at the claim's concrete scenario — a history
consisting solely of a "Publish externally" event dated 2009-11-23 with
cutoff 2024-12-01 (dates encoded as yyyymmdd) yields the empty list: the
walk stops at the publish boundary immediately, collecting nothing. -/
theorem get_recent_history_publish_2009_witness :
    (∀ e ∈ (collectUntilBoundary (sortEventsDesc
        [{ modified := 20091123, action := some "Publish externally", comment := "" }])).1,
        e.modified < 20241201) ∧
    PleiadesRSSReporter.get_recent_history
      [{ modified := 20091123, action := some "Publish externally", comment := "" }]
      20241201 = [] :=
  ⟨by decide, get_recent_history_empty_when_nothing_recent _ _ (by decide)⟩

/-- C8: the boundary walk collects no event whose status is
"Publish externally" or "Baseline created" (the stop is exclusive); when the
boundary hit was NOT "Baseline created" (publish boundary or end of list),
the truncation pass applies and every event in the result falls on or after
the cutoff; when a "Baseline created" boundary was hit, the truncation does
not apply: the result is the collected list itself (events older than the
cutoff retained) unless the final guard empties it. -/
theorem get_recent_history_boundary_semantics (history : List HEvent) (cutoff : Nat) :
    (∀ e ∈ (collectUntilBoundary (sortEventsDesc history)).1,
        statusOf e ≠ "Publish externally" ∧ statusOf e ≠ "Baseline created") ∧
    ((collectUntilBoundary (sortEventsDesc history)).2 = false →
        ∀ e ∈ PleiadesRSSReporter.get_recent_history history cutoff,
          cutoff ≤ e.modified) ∧
    ((collectUntilBoundary (sortEventsDesc history)).2 = true →
        PleiadesRSSReporter.get_recent_history history cutoff =
          (collectUntilBoundary (sortEventsDesc history)).1 ∨
        PleiadesRSSReporter.get_recent_history history cutoff = []) := by
  refine ⟨collectUntilBoundary_no_boundary _, ?_, ?_⟩
  · intro hfb e he
    simp only [PleiadesRSSReporter.get_recent_history, hfb, Bool.false_eq_true,
      if_false] at he
    split at he
    · simp at he
    · exact pruneEarly_ge cutoff _ e he
  · intro hfb
    simp only [PleiadesRSSReporter.get_recent_history, hfb]
    simp only [if_true]
    split
    · exact Or.inr rfl
    · exact Or.inl rfl

/-- C8 (witness): the theorem applied where the walk hits a
"Baseline created" boundary: the collected newer event survives untruncated. -/
theorem get_recent_history_boundary_semantics_witness :
    PleiadesRSSReporter.get_recent_history
        [{ modified := 100, action := none, comment := "edit" },
         { modified := 50, action := none, comment := "Baseline created" }] 80 =
      (collectUntilBoundary (sortEventsDesc
        [{ modified := 100, action := none, comment := "edit" },
         { modified := 50, action := none, comment := "Baseline created" }])).1 ∨
    PleiadesRSSReporter.get_recent_history
        [{ modified := 100, action := none, comment := "edit" },
         { modified := 50, action := none, comment := "Baseline created" }] 80 = [] :=
  (get_recent_history_boundary_semantics _ _).2.2 (by decide)

/-- C9 (counterexample): the normalized string " " (a single space) is
entirely blank, yet the markdown setter does not raise: the `while` loops
only test for the newline character, so the stored markdown is " ".  This
contradicts the claim that the setter raises exactly on entirely-blank
normalized strings. -/
theorem markdown_setter_blank_space_no_error :
    (([' '] : List Char).all isPythonSpace = true) ∧
    PleiadesReport.markdown_setter [' '] = some [' '] := by
  exact ⟨by decide, by decide⟩

/-- C9 (amended): when the normalized string contains any non-newline
character (in particular whenever it is non-blank), the stored markdown is
the normalized string with all leading and trailing newline characters
stripped and internal newlines preserved; the setter raises
(index/empty-string fault) if and only if the normalized string consists
entirely of newline characters (including the empty string). -/
theorem markdown_setter_strip_and_error_iff_newlines (l : List Char) :
    ((∃ c ∈ l, c ≠ '\n') →
        PleiadesReport.markdown_setter l = some (specStripNewlines l)) ∧
    (PleiadesReport.markdown_setter l = none ↔ ∀ c ∈ l, c = '\n') := by
  constructor
  · intro h
    have h1 := dropLeadingNewlines_eq_dropWhile l h
    have h2 : ∃ c ∈ (l.dropWhile (fun c => c = '\n')).reverse, c ≠ '\n' := by
      rcases exists_non_newline_dropWhile l h with ⟨c, hm, hne⟩
      exact ⟨c, List.mem_reverse.mpr hm, hne⟩
    simp only [PleiadesReport.markdown_setter, h1, Option.some_bind,
      dropTrailingNewlines]
    rw [dropLeadingNewlines_eq_dropWhile _ h2]
    simp [specStripNewlines]
  · constructor
    · intro hnone
      cases hdl : dropLeadingNewlines l with
      | none => exact (dropLeadingNewlines_none_iff l).mp hdl
      | some t =>
        exfalso
        simp only [PleiadesReport.markdown_setter, hdl, Option.some_bind,
          dropTrailingNewlines, Option.map_eq_none'] at hnone
        have hall := (dropLeadingNewlines_none_iff _).mp hnone
        rcases dropLeadingNewlines_some_exists l t hdl with ⟨c, hm, hne⟩
        exact hne (hall c (List.mem_reverse.mpr hm))
    · intro hall
      have hdl : dropLeadingNewlines l = none := (dropLeadingNewlines_none_iff l).mpr hall
      simp [PleiadesReport.markdown_setter, hdl]

/-- C9 (witness): the amended theorem at the concrete normalized string
"\na": the leading newline is stripped and "a" is stored. -/
theorem markdown_setter_strip_witness :
    PleiadesReport.markdown_setter ['\n', 'a'] = some (specStripNewlines ['\n', 'a']) :=
  (markdown_setter_strip_and_error_iff_newlines ['\n', 'a']).1 ⟨'a', by decide, by decide⟩
